import Mathlib

/-
Verification development for the csv-normalizer scripts
(`analyze.py`, `normalize.py`, `transform.py`).

Shallow embedding conventions:
- Python sets of column names become `Finset String`; Python lists stay `List`.
- Python floats (FD confidence values) are modelled as exact rationals `ℚ`,
  with `round(x, 4)` modelled as decimal rounding half-to-even (`round4`).
- A pandas data frame is a list of rows, a row being a function from column
  name to `Option String` (`none` models a null/NaN cell).
- `sys.exit` inside a library function is modelled by an `Option` result
  (`none` = the process aborted before producing output).
- Where Python iterates over a `set` (whose iteration order is unspecified),
  the embedding uses the sorted list of the set's elements; all properties
  proved below are insensitive to that order.
-/

set_option maxHeartbeats 1000000

set_option maxRecDepth 100000

/-- A functional dependency record as used by `normalize.py`:
a dict with keys `"determinant"` (list of column names) and
`"dependent"` (single column name). -/
structure FD where
  determinant : List String
  dependent : String
deriving DecidableEq, Repr

/-- One full pass of the `while changed:` loop of `compute_closure`
(normalize.py lines 83-90): scan `fds` once in order, adding `fd.dependent`
whenever `fd.determinant` is a subset of the accumulated closure.
(Inserting an element that is already present leaves a `Finset` unchanged,
so the Python `dependent not in closure` guard needs no separate branch.) -/
def closureStep (fds : List FD) (c : Finset String) : Finset String :=
  fds.foldl (fun acc fd => if fd.determinant.toFinset ⊆ acc then insert fd.dependent acc else acc) c

/-- `compute_closure(attrs, fds)` (normalize.py lines 79-92): iterate the
scanning pass to a fixed point.  Every changing pass adds at least one of the
at most `fds.length` dependents, so `fds.length` passes always reach the fixed
point (`closureStep_compute_closure` below); the Python `while` loop stops at
the same set. -/
def compute_closure (attrs : Finset String) (fds : List FD) : Finset String :=
  (closureStep fds)^[fds.length] attrs

/-- `is_derivable(fd, fd_set)` (normalize.py lines 63-76): the body repeats
the closure loop of `compute_closure` verbatim, so it is embedded as the
membership test `fd.dependent ∈ compute_closure(set(fd.determinant), fd_set)`. -/
def is_derivable (fd : FD) (fd_set : List FD) : Bool :=
  fd.dependent ∈ compute_closure fd.determinant.toFinset fd_set

/-- A set is closed under a list of FDs when every applicable FD adds nothing. -/
def ClosedUnder (fds : List FD) (c : Finset String) : Prop :=
  ∀ fd ∈ fds, fd.determinant.toFinset ⊆ c → fd.dependent ∈ c

/-- The set of all dependents of a list of FDs. -/
def depFinset (fds : List FD) : Finset String :=
  (fds.map FD.dependent).toFinset

lemma subset_foldl_step :
    ∀ (l : List FD) (c : Finset String),
      c ⊆ l.foldl (fun acc fd => if fd.determinant.toFinset ⊆ acc then insert fd.dependent acc else acc) c := by
  intro l
  induction l with
  | nil => intro c; simp
  | cons fd l ih =>
    intro c
    refine subset_trans ?_ (ih _)
    by_cases h : fd.determinant.toFinset ⊆ c <;> simp [h, Finset.subset_insert]

lemma subset_closureStep (fds : List FD) (c : Finset String) : c ⊆ closureStep fds c :=
  subset_foldl_step fds c

lemma foldl_step_subset {D : Finset String} :
    ∀ (l : List FD) (c : Finset String),
      (∀ fd ∈ l, fd.determinant.toFinset ⊆ D → fd.dependent ∈ D) → c ⊆ D →
      l.foldl (fun acc fd => if fd.determinant.toFinset ⊆ acc then insert fd.dependent acc else acc) c ⊆ D := by
  intro l
  induction l with
  | nil => intro c _ hc; simpa using hc
  | cons fd l ih =>
    intro c hl hc
    simp only [List.foldl_cons]
    refine ih _ (fun g hg => hl g (List.mem_cons_of_mem _ hg)) ?_
    by_cases h : fd.determinant.toFinset ⊆ c
    · simp only [h, if_pos]
      exact Finset.insert_subset (hl fd (List.mem_cons_self _ _) (subset_trans h hc)) hc
    · simpa [h] using hc

lemma closureStep_subset {fds : List FD} {c D : Finset String}
    (hD : ClosedUnder fds D) (hc : c ⊆ D) : closureStep fds c ⊆ D :=
  foldl_step_subset fds c hD hc

lemma dependent_mem_foldl_step :
    ∀ (l : List FD) (c : Finset String) (fd : FD), fd ∈ l → fd.determinant.toFinset ⊆ c →
      fd.dependent ∈ l.foldl (fun acc fd => if fd.determinant.toFinset ⊆ acc then insert fd.dependent acc else acc) c := by
  intro l
  induction l with
  | nil => intro c fd h; simp at h
  | cons g l ih =>
    intro c fd hmem hdet
    simp only [List.foldl_cons]
    rcases List.mem_cons.mp hmem with h | h
    · subst h
      refine (subset_foldl_step l _) ?_
      simp [hdet, Finset.mem_insert_self]
    · exact ih _ fd h (subset_trans hdet (by
        by_cases hg : g.determinant.toFinset ⊆ c <;> simp [hg, Finset.subset_insert]))

lemma dependent_mem_closureStep {fds : List FD} {c : Finset String} {fd : FD}
    (hmem : fd ∈ fds) (hdet : fd.determinant.toFinset ⊆ c) :
    fd.dependent ∈ closureStep fds c :=
  dependent_mem_foldl_step fds c fd hmem hdet

lemma closureStep_eq_of_closed {fds : List FD} {c : Finset String}
    (h : ClosedUnder fds c) : closureStep fds c = c :=
  subset_antisymm (closureStep_subset h subset_rfl) (subset_closureStep fds c)

lemma closed_of_closureStep_eq {fds : List FD} {c : Finset String}
    (h : closureStep fds c = c) : ClosedUnder fds c := by
  intro fd hmem hdet
  have := dependent_mem_closureStep hmem hdet
  rwa [h] at this

lemma closed_union_depFinset (fds : List FD) (X : Finset String) :
    ClosedUnder fds (X ∪ depFinset fds) := by
  intro fd hmem _
  refine Finset.mem_union_right _ ?_
  simp only [depFinset, List.mem_toFinset, List.mem_map]
  exact ⟨fd, hmem, rfl⟩

lemma iterate_subset_union (fds : List FD) (attrs : Finset String) :
    ∀ k, (closureStep fds)^[k] attrs ⊆ attrs ∪ depFinset fds := by
  intro k
  induction k with
  | zero => simp
  | succ k ih =>
    rw [Function.iterate_succ_apply']
    exact closureStep_subset (closed_union_depFinset fds attrs) ih

lemma subset_compute_closure (attrs : Finset String) (fds : List FD) :
    attrs ⊆ compute_closure attrs fds := by
  unfold compute_closure
  generalize fds.length = k
  induction k with
  | zero => simp
  | succ k ih =>
    rw [Function.iterate_succ_apply']
    exact subset_trans ih (subset_closureStep fds _)

lemma iterate_fix_or_card (fds : List FD) (attrs : Finset String) :
    ∀ k : ℕ, closureStep fds ((closureStep fds)^[k] attrs) = (closureStep fds)^[k] attrs ∨
      attrs.card + k ≤ ((closureStep fds)^[k] attrs).card := by
  intro k
  induction k with
  | zero => right; simp
  | succ k ih =>
    by_cases hf : closureStep fds ((closureStep fds)^[k] attrs) = (closureStep fds)^[k] attrs
    · left
      rw [Function.iterate_succ_apply', hf, hf]
    · rcases ih with h | h
      · exact absurd h hf
      · right
        have hss : (closureStep fds)^[k] attrs ⊂ (closureStep fds)^[k + 1] attrs := by
          rw [Function.iterate_succ_apply']
          exact ssubset_of_subset_of_ne (subset_closureStep fds _) (fun he => hf he.symm)
        have := Finset.card_lt_card hss
        omega

lemma closureStep_compute_closure (attrs : Finset String) (fds : List FD) :
    closureStep fds (compute_closure attrs fds) = compute_closure attrs fds := by
  rcases iterate_fix_or_card fds attrs fds.length with h | h
  · exact h
  · have hsub := iterate_subset_union fds attrs fds.length
    have hdep : (depFinset fds).card ≤ fds.length := by
      simpa [depFinset] using List.toFinset_card_le (fds.map FD.dependent)
    have hcard : (attrs ∪ depFinset fds).card ≤ attrs.card + fds.length :=
      le_trans (Finset.card_union_le _ _) (by omega)
    have heq : (closureStep fds)^[fds.length] attrs = attrs ∪ depFinset fds :=
      Finset.eq_of_subset_of_card_le hsub (by omega)
    refine closureStep_eq_of_closed ?_
    intro fd hfd _
    rw [compute_closure, heq]
    refine Finset.mem_union_right _ ?_
    simp only [depFinset, List.mem_toFinset, List.mem_map]
    exact ⟨fd, hfd, rfl⟩

lemma compute_closure_closed (attrs : Finset String) (fds : List FD) :
    ClosedUnder fds (compute_closure attrs fds) :=
  closed_of_closureStep_eq (closureStep_compute_closure attrs fds)

lemma compute_closure_subset {attrs D : Finset String} {fds : List FD}
    (hs : attrs ⊆ D) (hD : ClosedUnder fds D) : compute_closure attrs fds ⊆ D := by
  unfold compute_closure
  generalize fds.length = k
  induction k with
  | zero => simpa using hs
  | succ k ih =>
    rw [Function.iterate_succ_apply']
    exact closureStep_subset hD ih

lemma compute_closure_idem (attrs : Finset String) (fds : List FD) :
    compute_closure (compute_closure attrs fds) fds = compute_closure attrs fds :=
  subset_antisymm
    (compute_closure_subset subset_rfl (compute_closure_closed attrs fds))
    (subset_compute_closure _ fds)

lemma compute_closure_mono {attrs attrs2 : Finset String} (fds : List FD)
    (h : attrs ⊆ attrs2) : compute_closure attrs fds ⊆ compute_closure attrs2 fds :=
  compute_closure_subset (subset_trans h (subset_compute_closure attrs2 fds))
    (compute_closure_closed attrs2 fds)

lemma dependent_mem_compute_closure {fd : FD} {fds : List FD} (h : fd ∈ fds) :
    fd.dependent ∈ compute_closure fd.determinant.toFinset fds :=
  compute_closure_closed _ fds fd h (subset_compute_closure _ fds)

/-- If every FD of `G` is derivable from `F`, then any closure under `G` is
contained in the corresponding closure under `F`. -/
lemma compute_closure_subset_of_sound {G F : List FD}
    (hsound : ∀ g ∈ G, g.dependent ∈ compute_closure g.determinant.toFinset F)
    (X : Finset String) : compute_closure X G ⊆ compute_closure X F := by
  refine compute_closure_subset (subset_compute_closure X F) ?_
  intro g hg hdet
  refine (compute_closure_subset hdet (compute_closure_closed X F)) ?_
  exact hsound g hg

/-- **C6.** `compute_closure` is idempotent and monotone (increasing):
`closure(closure(S, F), F) = closure(S, F)` and `S ⊆ closure(S, F)`. -/
theorem compute_closure_idem_and_increasing (S : Finset String) (F : List FD) :
    compute_closure (compute_closure S F) F = compute_closure S F ∧
      S ⊆ compute_closure S F :=
  ⟨compute_closure_idem S F, subset_compute_closure S F⟩

/-- Lexicographic comparison of strings by code point, the order Python's
`sorted` uses on strings. -/
def charListLe : List Char → List Char → Bool
  | [], _ => true
  | _ :: _, [] => false
  | a :: as, b :: bs => if a < b then true else if b < a then false else charListLe as bs

/-- `a ≤ b` on strings, by code points. -/
def strLe (a b : String) : Bool := charListLe a.toList b.toList

/-- Insert a string into a (sorted) list, keeping the order. -/
def insertSorted (a : String) : List String → List String
  | [] => [a]
  | b :: bs => if strLe a b then a :: b :: bs else b :: insertSorted a bs

/-- Insertion sort on strings; models Python's `sorted` on a list of column
names (only the multiset of elements matters for every claim below). -/
def sortStrs : List String → List String
  | [] => []
  | a :: as => insertSorted a (sortStrs as)

lemma mem_insertSorted {a x : String} :
    ∀ {l : List String}, x ∈ insertSorted a l ↔ x = a ∨ x ∈ l := by
  intro l
  induction l with
  | nil => simp [insertSorted]
  | cons b bs ih =>
    by_cases h : strLe a b = true
    · simp [insertSorted, h]
    · rw [show insertSorted a (b :: bs) = b :: insertSorted a bs from by
        simp [insertSorted, h]]
      simp only [List.mem_cons, ih]
      tauto

lemma mem_sortStrs {x : String} : ∀ {l : List String}, x ∈ sortStrs l ↔ x ∈ l := by
  intro l
  induction l with
  | nil => simp [sortStrs]
  | cons a as ih => simp [sortStrs, mem_insertSorted, ih]

lemma toFinset_sortStrs (l : List String) : (sortStrs l).toFinset = l.toFinset := by
  ext x
  simp [mem_sortStrs]

/-- Helper for `drop_duplicates`: keep the elements of the second list that
are not in `seen`, first occurrences first (the pandas/`set` semantics). -/
def dropDupsAux [DecidableEq α] : List α → List α → List α
  | _, [] => []
  | seen, a :: rest => if a ∈ seen then dropDupsAux seen rest else a :: dropDupsAux (a :: seen) rest

/-- `drop_duplicates` of pandas (and materialization of a Python `set` built
from a list): keep the first occurrence of each element. -/
def drop_duplicates [DecidableEq α] (l : List α) : List α := dropDupsAux [] l

lemma mem_dropDupsAux [DecidableEq α] {x : α} :
    ∀ {seen l : List α}, x ∈ dropDupsAux seen l ↔ x ∈ l ∧ x ∉ seen := by
  intro seen l
  induction l generalizing seen with
  | nil => simp [dropDupsAux]
  | cons a rest ih =>
    by_cases h : a ∈ seen
    · rw [show dropDupsAux seen (a :: rest) = dropDupsAux seen rest from by
        simp [dropDupsAux, h]]
      rw [ih]
      simp only [List.mem_cons]
      constructor
      · rintro ⟨hx, hs⟩; exact ⟨Or.inr hx, hs⟩
      · rintro ⟨hx | hx, hs⟩
        · subst hx; exact absurd h hs
        · exact ⟨hx, hs⟩
    · rw [show dropDupsAux seen (a :: rest) = a :: dropDupsAux (a :: seen) rest from by
        simp [dropDupsAux, h]]
      simp only [List.mem_cons, ih]
      constructor
      · rintro (hx | ⟨hx, hs⟩)
        · subst hx; exact ⟨Or.inl rfl, h⟩
        · push_neg at hs
          exact ⟨Or.inr hx, hs.2⟩
      · rintro ⟨hx | hx, hs⟩
        · subst hx; exact Or.inl rfl
        · by_cases hxa : x = a
          · exact Or.inl hxa
          · refine Or.inr ⟨hx, ?_⟩
            push_neg
            exact ⟨hxa, hs⟩

lemma mem_drop_duplicates [DecidableEq α] {x : α} {l : List α} :
    x ∈ drop_duplicates l ↔ x ∈ l := by
  simp [drop_duplicates, mem_dropDupsAux]

lemma toFinset_drop_duplicates [DecidableEq α] (l : List α) :
    (drop_duplicates l).toFinset = l.toFinset := by
  ext x
  simp [mem_drop_duplicates]

/-- Step 1 of `compute_minimal_cover` (normalize.py lines 34-37): sort each
determinant (`tuple(sorted(fd["determinant"]))`). -/
def sortFD (fd : FD) : FD := ⟨sortStrs fd.determinant, fd.dependent⟩

lemma sortFD_toFinset (fd : FD) :
    (sortFD fd).determinant.toFinset = fd.determinant.toFinset :=
  toFinset_sortStrs fd.determinant

/-- Step 2 of `compute_minimal_cover` (normalize.py lines 40-45): scan the
list left to right; the FD at position `i` is dropped iff it is derivable
from `minimal[:i] + minimal[i+1:]` — all *other* FDs of the original list,
including ones already dropped (`prev` accumulates every scanned FD, kept or
not). -/
def removeRedundantAux : List FD → List FD → List FD
  | _, [] => []
  | prev, fd :: rest =>
    if is_derivable fd (prev ++ rest) then removeRedundantAux (prev ++ [fd]) rest
    else fd :: removeRedundantAux (prev ++ [fd]) rest

lemma mem_removeRedundantAux {x : FD} :
    ∀ {prev l : List FD}, x ∈ removeRedundantAux prev l → x ∈ l := by
  intro prev l
  induction l generalizing prev with
  | nil => simp [removeRedundantAux]
  | cons fd rest ih =>
    intro hx
    by_cases h : is_derivable fd (prev ++ rest) = true
    · simp only [removeRedundantAux, if_pos h] at hx
      exact List.mem_cons_of_mem _ (ih hx)
    · simp only [removeRedundantAux, if_neg h, List.mem_cons] at hx
      rcases hx with hx | hx
      · exact hx ▸ List.mem_cons_self _ _
      · exact List.mem_cons_of_mem _ (ih hx)

/-- Step 3 of `compute_minimal_cover` (normalize.py lines 48-58): for an FD
with a multi-attribute determinant, drop the first attribute whose removal
keeps the FD derivable from the step-2 `result` list, stopping at the first
success. -/
def reduce_det (result : List FD) (fd : FD) : FD :=
  if 1 < fd.determinant.length then
    match fd.determinant.find? (fun attr =>
        is_derivable ⟨fd.determinant.filter (fun a => a != attr), fd.dependent⟩ result) with
    | some attr => ⟨fd.determinant.filter (fun a => a != attr), fd.dependent⟩
    | none => fd
  else fd

/-- `compute_minimal_cover(fds)` (normalize.py lines 29-60). -/
def compute_minimal_cover (fds : List FD) : List FD :=
  let minimal := fds.map sortFD
  let result := removeRedundantAux [] minimal
  result.map (reduce_det result)

lemma reduce_det_cases (result : List FD) (fd : FD) :
    reduce_det result fd = fd ∨
      (is_derivable (reduce_det result fd) result = true ∧
        (reduce_det result fd).dependent = fd.dependent) := by
  unfold reduce_det
  by_cases hlen : 1 < fd.determinant.length
  · simp only [if_pos hlen]
    cases hf : fd.determinant.find? (fun attr =>
        is_derivable ⟨fd.determinant.filter (fun a => a != attr), fd.dependent⟩ result) with
    | none => exact Or.inl rfl
    | some attr =>
      exact Or.inr ⟨@List.find?_some String
        (fun attr => is_derivable ⟨fd.determinant.filter (fun a => a != attr), fd.dependent⟩ result)
        attr fd.determinant hf, rfl⟩
  · simp [if_neg hlen]

/-- Closures under the sorted-determinant copy of an FD list agree with
closures under the original list. -/
lemma compute_closure_map_sortFD (fds : List FD) (X : Finset String) :
    compute_closure X (fds.map sortFD) = compute_closure X fds := by
  refine subset_antisymm ?_ ?_
  · refine compute_closure_subset_of_sound ?_ X
    intro g hg
    rcases List.mem_map.mp hg with ⟨f, hf, rfl⟩
    rw [sortFD_toFinset]
    exact dependent_mem_compute_closure hf
  · refine compute_closure_subset_of_sound ?_ X
    intro f hf
    have : (sortFD f).dependent ∈
        compute_closure (sortFD f).determinant.toFinset (fds.map sortFD) :=
      dependent_mem_compute_closure (List.mem_map_of_mem sortFD hf)
    rwa [sortFD_toFinset] at this

/-- Every FD of the minimal cover is derivable from the original list. -/
lemma minimal_cover_sound (fds : List FD) :
    ∀ g ∈ compute_minimal_cover fds,
      g.dependent ∈ compute_closure g.determinant.toFinset fds := by
  intro g hg
  unfold compute_minimal_cover at hg
  rcases List.mem_map.mp hg with ⟨r, hr, rfl⟩
  have hrmin : r ∈ fds.map sortFD := mem_removeRedundantAux hr
  have hsound_result : ∀ x ∈ removeRedundantAux [] (fds.map sortFD),
      x.dependent ∈ compute_closure x.determinant.toFinset fds := by
    intro x hx
    have hx2 : x ∈ fds.map sortFD := mem_removeRedundantAux hx
    have := dependent_mem_compute_closure hx2
    rwa [compute_closure_map_sortFD] at this
  rcases reduce_det_cases (removeRedundantAux [] (fds.map sortFD)) r with heq | ⟨hder, hdep⟩
  · rw [heq]
    exact hsound_result r hr
  · have : (reduce_det (removeRedundantAux [] (fds.map sortFD)) r).dependent ∈
        compute_closure (reduce_det (removeRedundantAux [] (fds.map sortFD)) r).determinant.toFinset
          (removeRedundantAux [] (fds.map sortFD)) := by
      simpa [is_derivable] using hder
    refine compute_closure_subset_of_sound
      (fun x hx => hsound_result x hx) _ this

/-- **C1 (amended).** One inclusion of the claimed equivalence does hold for
every attribute set `X`: the closure under the minimal cover is contained in
the closure under the original confirmed FD list. -/
theorem minimal_cover_closure_subset (X : Finset String) (fds : List FD) :
    compute_closure X (compute_minimal_cover fds) ⊆ compute_closure X fds :=
  compute_closure_subset_of_sound (minimal_cover_sound fds) X

/-- The FD list `A→B, A→C, C→B, B→C`; scanning left to right, `A→B` is
derivable from the other three and is dropped, then `A→C` is derivable from
the other three (including the already-dropped `A→B`) and is dropped too. -/
def c1Fds : List FD := [⟨["A"], "B"⟩, ⟨["A"], "C"⟩, ⟨["C"], "B"⟩, ⟨["B"], "C"⟩]

/-- **C1 (counterexample).** The cover computed from `c1Fds` is
`[C→B, B→C]`, and the closure of `{A}` under it is `{A}`, while the closure
of `{A}` under the original list is `{A, B, C}`: `compute_minimal_cover` does
not preserve closures, because step 2 tests each FD against all *other
original* FDs, dropping both of a mutually-derivable pair. -/
theorem minimal_cover_not_closure_equivalent :
    compute_closure {"A"} (compute_minimal_cover c1Fds) ≠
      compute_closure {"A"} c1Fds := by decide

/-- A data-frame row: column name ↦ cell value, `none` modelling null/NaN. -/
def Row : Type := String → Option String

/-- A pandas data frame: its column list and its rows. -/
structure Df where
  columns : List String
  rows : List Row

/-- True when the row is non-null in every listed column. -/
def rowNotNull (cols : List String) (r : Row) : Bool :=
  cols.all (fun c => (r c).isSome)

/-- The group-by key of a row: its tuple of determinant values. -/
def rowKey (determinant : List String) (r : Row) : List (Option String) :=
  determinant.map r

/-- Result record of `check_fd` (keys `"holds"`, `"confidence"`,
`"violations"`, `"total_groups"`). -/
structure CheckResult where
  holds : Bool
  confidence : ℚ
  violations : ℕ
  total_groups : ℕ
deriving DecidableEq, Repr

/-- The group-by of `check_fd` (analyze.py lines 87-89): on the null-filtered
rows, count the groups whose dependent takes more than one distinct value
(violations) and the total number of groups.  Returns (violations, total). -/
def groupStats (df : Df) (determinant : List String) (dependent : String) : ℕ × ℕ :=
  let clean := df.rows.filter (rowNotNull (determinant ++ [dependent]))
  let keys := drop_duplicates (clean.map (rowKey determinant))
  let nuniqueOf := fun k =>
    (drop_duplicates ((clean.filter (fun r => rowKey determinant r == k)).map
      (fun r => r dependent))).length
  ((keys.filter (fun k => 1 < nuniqueOf k)).length, keys.length)

/-- Round half-to-even to the nearest integer (Python's builtin `round`). -/
def roundHalfEven (q : ℚ) : ℤ :=
  if q - ⌊q⌋ = 1/2 then (if Even ⌊q⌋ then ⌊q⌋ else ⌊q⌋ + 1) else round q

/-- Python's `round(x, 4)` (analyze.py line 95): decimal rounding to four
places, half-to-even.  (CPython rounds the binary-float value; every concrete
value appearing below is far from a representation-sensitive tie.) -/
def round4 (q : ℚ) : ℚ := (roundHalfEven (q * 10000) : ℚ) / 10000

/-- The stored confidence of `check_fd` (analyze.py lines 91 and 95):
`round(1 - violations/total_groups, 4)`, or 0 when there are no groups. -/
def fdConfidence (violations total_groups : ℕ) : ℚ :=
  if 0 < total_groups then round4 (1 - (violations : ℚ) / (total_groups : ℚ)) else 0

/-- `check_fd(df, determinant, dependent)` (analyze.py lines 74-98).  The
Python code filters null rows only when some null is present, but filtering a
null-free frame is the identity, so the embedding always filters.  In the
empty-frame early return the Python dict carries no `"total_groups"` key; the
embedding uses 0 there. -/
def check_fd (df : Df) (determinant : List String) (dependent : String) : CheckResult :=
  if (df.rows.filter (rowNotNull (determinant ++ [dependent]))).isEmpty then
    ⟨false, 0, 0, 0⟩
  else
    let s := groupStats df determinant dependent
    ⟨s.1 == 0, fdConfidence s.1 s.2, s.1, s.2⟩

/-- The status assignment of `detect_fds` (analyze.py lines 118 and 143):
`"confirmed"` iff the stored (rounded) confidence equals 1.0. -/
def fdStatus (confidence : ℚ) : String :=
  if confidence = 1 then "confirmed" else "needs_review"

/-- A discovered-FD record of `detect_fds`: the determinant/dependent pair,
the spread `check_fd` result, and the status. -/
structure FDRecord where
  determinant : List String
  dependent : String
  holds : Bool
  confidence : ℚ
  violations : ℕ
  total_groups : ℕ
  status : String
deriving DecidableEq, Repr

/-- Assemble the record appended by `detect_fds` for one tested pair. -/
def mkFDRecord (det : List String) (dep : String) (r : CheckResult) : FDRecord :=
  ⟨det, dep, r.holds, r.confidence, r.violations, r.total_groups, fdStatus r.confidence⟩

/-- `df[c].nunique()`: number of distinct non-null values of a column. -/
def colNunique (df : Df) (c : String) : ℕ :=
  (drop_duplicates (df.rows.filterMap (fun r => r c))).length

/-- `itertools.combinations(l, 2)` in order. -/
def pairsOf : List α → List (α × α)
  | [] => []
  | a :: rest => rest.map (fun b => (a, b)) ++ pairsOf rest

/-- `detect_fds(df, confidence_threshold)` (analyze.py lines 101-146):
single-column determinants for every ordered pair of distinct columns, then
two-column determinants over the high-cardinality columns, skipping a
composite pair already determined by one of its singletons with confidence
1.0.  (For an empty frame the Python ratio `nunique/len(df)` raises
`ZeroDivisionError`; `ℚ` division by zero yields 0 here — no claim touches
that case.) -/
def detect_fds (df : Df) (threshold : ℚ) : List FDRecord :=
  let single := df.columns.foldl (fun acc det_col =>
    df.columns.foldl (fun acc2 dep_col =>
      if det_col = dep_col then acc2
      else
        let r := check_fd df [det_col] dep_col
        if threshold ≤ r.confidence then acc2 ++ [mkFDRecord [det_col] dep_col r]
        else acc2) acc) []
  let high_card := df.columns.filter (fun c =>
    decide ((1:ℚ)/2 < (colNunique df c : ℚ) / (df.rows.length : ℚ)))
  (pairsOf high_card).foldl (fun acc det_cols =>
    df.columns.foldl (fun acc2 dep_col =>
      if dep_col = det_cols.1 ∨ dep_col = det_cols.2 then acc2
      else
        let r := check_fd df [det_cols.1, det_cols.2] dep_col
        if threshold ≤ r.confidence then
          if acc2.any (fun fd => decide (fd.confidence = 1 ∧
              ((fd.determinant = [det_cols.1] ∧ fd.dependent = dep_col) ∨
               (fd.determinant = [det_cols.2] ∧ fd.dependent = dep_col)))) then acc2
          else acc2 ++ [mkFDRecord [det_cols.1, det_cols.2] dep_col r]
        else acc2) acc) single

lemma round4_one : round4 1 = 1 := by
  have h2 : ⌊(1:ℚ) * 10000⌋ = 10000 := by norm_num
  have h3 : round ((1:ℚ) * 10000) = 10000 := by
    rw [round_eq]; norm_num [Int.floor_eq_iff]
  rw [round4, roundHalfEven, h2]
  norm_num [h3]

lemma fdStatus_eq_confirmed_iff (q : ℚ) : fdStatus q = "confirmed" ↔ q = 1 := by
  unfold fdStatus
  by_cases h : q = 1
  · simp [h]
  · simp only [if_neg h]
    constructor
    · intro hc; exact absurd hc (by decide)
    · intro hq; exact absurd hq h

lemma check_fd_confidence_eq (df : Df) (det : List String) (dep : String) :
    (check_fd df det dep).confidence =
      fdConfidence (check_fd df det dep).violations (check_fd df det dep).total_groups := by
  unfold check_fd
  by_cases h : (df.rows.filter (rowNotNull (det ++ [dep]))).isEmpty = true
  · simp only [h, if_true, fdConfidence]
    norm_num
  · simp only [h, Bool.false_eq_true, if_false]

lemma mkFDRecord_confidence_status (det : List String) (dep : String) (r : CheckResult) :
    (mkFDRecord det dep r).confidence = r.confidence ∧
      (mkFDRecord det dep r).status = fdStatus r.confidence ∧
      (mkFDRecord det dep r).violations = r.violations ∧
      (mkFDRecord det dep r).total_groups = r.total_groups :=
  ⟨rfl, rfl, rfl, rfl⟩

/-- Membership in a fold whose step either keeps the accumulator or appends
elements satisfying `P`. -/
lemma foldl_preserve {α β : Type} {P : β → Prop} (step : List β → α → List β)
    (hstep : ∀ acc a x, x ∈ step acc a → x ∈ acc ∨ P x) :
    ∀ (l : List α) (acc : List β), (∀ x ∈ acc, P x) → ∀ x ∈ l.foldl step acc, P x := by
  intro l
  induction l with
  | nil => intro acc hacc; simpa using hacc
  | cons a l ih =>
    intro acc hacc x hx
    simp only [List.foldl_cons] at hx
    refine ih _ ?_ x hx
    intro y hy
    rcases hstep acc a y hy with h | h
    · exact hacc y h
    · exact h

/-- Every record of `detect_fds` is the `mkFDRecord` of a `check_fd` call on
the same frame. -/
lemma detect_fds_mem_shape (df : Df) (threshold : ℚ) :
    ∀ rec ∈ detect_fds df threshold,
      ∃ det dep, rec = mkFDRecord det dep (check_fd df det dep) := by
  intro rec hrec
  unfold detect_fds at hrec
  revert rec hrec
  refine foldl_preserve _ ?_ _ _ ?_
  · intro acc pair x hx
    revert x hx
    refine foldl_preserve _ ?_ _ _ ?_
    · intro acc2 dep_col x hx
      by_cases h1 : dep_col = pair.1 ∨ dep_col = pair.2
      · simp only [if_pos h1] at hx
        exact Or.inl hx
      · simp only [if_neg h1] at hx
        by_cases h2 : threshold ≤ (check_fd df [pair.1, pair.2] dep_col).confidence
        · simp only [if_pos h2] at hx
          by_cases h3 : acc2.any (fun fd => decide (fd.confidence = 1 ∧
              ((fd.determinant = [pair.1] ∧ fd.dependent = dep_col) ∨
               (fd.determinant = [pair.2] ∧ fd.dependent = dep_col)))) = true
          · simp only [h3, if_true] at hx
            exact Or.inl hx
          · simp only [h3, Bool.false_eq_true, if_false] at hx
            rcases List.mem_append.mp hx with h | h
            · exact Or.inl h
            · rcases List.mem_singleton.mp h with rfl
              exact Or.inr (Or.inr ⟨[pair.1, pair.2], dep_col, rfl⟩)
        · simp only [if_neg h2] at hx
          exact Or.inl hx
    · intro x hx
      exact Or.inl hx
  · -- the single-column phase
    refine foldl_preserve _ ?_ _ _ ?_
    · intro acc det_col x hx
      revert x hx
      refine foldl_preserve _ ?_ _ _ ?_
      · intro acc2 dep_col x hx
        by_cases h1 : det_col = dep_col
        · simp only [if_pos h1] at hx
          exact Or.inl hx
        · simp only [if_neg h1] at hx
          by_cases h2 : threshold ≤ (check_fd df [det_col] dep_col).confidence
          · simp only [if_pos h2] at hx
            rcases List.mem_append.mp hx with h | h
            · exact Or.inl h
            · rcases List.mem_singleton.mp h with rfl
              exact Or.inr (Or.inr ⟨[det_col], dep_col, rfl⟩)
          · simp only [if_neg h2] at hx
            exact Or.inl hx
      · intro x hx
        exact Or.inl hx
    · intro x hx
      simp at hx

/-- **C4 (amended).** Every record produced by FD discovery stores
`confidence = round(1 − violations/total_groups, 4)` (0 when there are no
non-null groups), and its status is `"confirmed"` exactly when that *rounded*
confidence equals 1.0; zero violating groups (with at least one group) always
yields status `"confirmed"`, but the converse fails (see the counterexample:
rounding makes the stored confidence differ from `1 − violations/total`). -/
theorem detect_fds_confidence_status (df : Df) (threshold : ℚ) :
    (∀ rec ∈ detect_fds df threshold,
        rec.confidence = fdConfidence rec.violations rec.total_groups ∧
        (rec.status = "confirmed" ↔ rec.confidence = 1)) ∧
    (∀ det dep, (check_fd df det dep).confidence =
        fdConfidence (check_fd df det dep).violations (check_fd df det dep).total_groups) ∧
    (∀ det dep, (check_fd df det dep).violations = 0 →
        0 < (check_fd df det dep).total_groups →
        fdStatus (check_fd df det dep).confidence = "confirmed") := by
  refine ⟨?_, ?_, ?_⟩
  · intro rec hrec
    rcases detect_fds_mem_shape df threshold rec hrec with ⟨det, dep, rfl⟩
    constructor
    · exact check_fd_confidence_eq df det dep
    · exact fdStatus_eq_confirmed_iff _
  · intro det dep
    exact check_fd_confidence_eq df det dep
  · intro det dep hv ht
    rw [fdStatus_eq_confirmed_iff, check_fd_confidence_eq df det dep, hv, fdConfidence,
      if_pos ht]
    norm_num [round4_one]

/-- Rows over columns `"d"`, `"p"` used by the C4 counterexample and witness. -/
def mkRowDP (dv pv : String) : Row :=
  fun c => if c = "d" then some dv else if c = "p" then some pv else none

/-- Four rows giving three `"d"`-groups, one of which has two distinct
`"p"` values: 1 violation among 3 groups. -/
def c4Df : Df := ⟨["d", "p"], [mkRowDP "a" "1", mkRowDP "a" "2", mkRowDP "b" "1", mkRowDP "c" "1"]⟩

lemma round4_two_thirds : round4 (1 - (1:ℚ)/3) = 6667/10000 := by
  have h1 : (1 - (1:ℚ)/3) * 10000 = 20000/3 := by norm_num
  have h2 : ⌊(20000:ℚ)/3⌋ = 6666 := by norm_num [Int.floor_eq_iff]
  have h3 : round ((20000:ℚ)/3) = 6667 := by
    rw [round_eq]; norm_num [Int.floor_eq_iff]
  rw [round4, h1, roundHalfEven, h2]
  norm_num [h3]

lemma c4_check_eq : check_fd c4Df ["d"] "p" = ⟨false, fdConfidence 1 3, 1, 3⟩ := by
  have h1 : (c4Df.rows.filter (rowNotNull (["d"] ++ ["p"]))).isEmpty = false := by decide
  have h2 : groupStats c4Df ["d"] "p" = (1, 3) := by decide
  rw [check_fd, h1]
  simp only [Bool.false_eq_true, if_false, h2]
  rfl

/-- **C4 (counterexample).** On a concrete frame with 1 violating group out
of 3, `check_fd` stores confidence `0.6667` — the 4-decimal rounding — which
differs from the claimed exact value `1 − violations/total_groups = 2/3`. -/
theorem check_fd_confidence_not_exact :
    (check_fd c4Df ["d"] "p").violations = 1 ∧
    (check_fd c4Df ["d"] "p").total_groups = 3 ∧
    (check_fd c4Df ["d"] "p").confidence ≠
      1 - ((check_fd c4Df ["d"] "p").violations : ℚ) /
        ((check_fd c4Df ["d"] "p").total_groups : ℚ) := by
  rw [c4_check_eq]
  refine ⟨rfl, rfl, ?_⟩
  show fdConfidence 1 3 ≠ 1 - (1:ℚ)/3
  rw [fdConfidence, if_pos (by norm_num)]
  have : ((1:ℕ):ℚ) / ((3:ℕ):ℚ) = 1/3 := by norm_num
  rw [this, round4_two_thirds]
  norm_num

/-- Two rows, two groups, no violation. -/
def c4WitnessDf : Df := ⟨["d", "p"], [mkRowDP "a" "1", mkRowDP "b" "1"]⟩

/-- Witness for C4: a concrete violation-free frame on which
`detect_fds_confidence_status` yields the `"confirmed"` status. -/
theorem detect_fds_confidence_status_witness :
    fdStatus (check_fd c4WitnessDf ["d"] "p").confidence = "confirmed" :=
  (detect_fds_confidence_status c4WitnessDf (8/10)).2.2 ["d"] "p" (by decide) (by decide)

/-- Membership in a fold is preserved from the initial accumulator when every
step keeps its accumulator's elements. -/
lemma mem_foldl_of_mem_acc {α β : Type} (step : List β → α → List β)
    (hstep : ∀ acc a x, x ∈ acc → x ∈ step acc a) :
    ∀ (l : List α) (acc : List β) (x : β), x ∈ acc → x ∈ l.foldl step acc := by
  intro l
  induction l with
  | nil => intro acc x hx; simpa using hx
  | cons a l ih =>
    intro acc x hx
    simp only [List.foldl_cons]
    exact ih _ x (hstep acc a x hx)

/-- The dependents of the confidence-1.0 records
(`all_dependents` in analyze.py line 155). -/
def confirmedDependents (fds : List FDRecord) : Finset String :=
  ((fds.filter (fun fd => fd.confidence == 1)).map FDRecord.dependent).toFinset

/-- `must_be_in_key` (analyze.py line 156): all columns minus every
confirmed dependent. -/
def mustBeInKey (df : Df) (fds : List FDRecord) : Finset String :=
  df.columns.toFinset \ confirmedDependents fds

/-- `determined` (analyze.py lines 160-163): the dependents of confirmed FDs
whose determinant lies inside `must_be_in_key` — one FD application, not a
closure. -/
def oneStepDetermined (df : Df) (fds : List FDRecord) : Finset String :=
  ((fds.filter (fun fd => fd.confidence == 1 &&
      decide (fd.determinant.toFinset ⊆ mustBeInKey df fds))).map FDRecord.dependent).toFinset

/-- A candidate-key record (keys `"columns"`, `"is_minimal"`). -/
structure CandidateKey where
  columns : List String
  is_minimal : Bool
deriving DecidableEq, Repr

/-- `find_candidate_keys(df, fds)` (analyze.py lines 149-180).  The trivial
unique-column loop runs over the Python *set* of columns; the embedding
iterates the sorted deduplicated column list (the claims below are
insensitive to that order). -/
def find_candidate_keys (df : Df) (fds : List FDRecord) : List CandidateKey :=
  let columns := df.columns.toFinset
  let must := mustBeInKey df fds
  let base :=
    if must.Nonempty then
      (if oneStepDetermined df fds ∪ must = columns then
        [⟨sortStrs (drop_duplicates (df.columns.filter (fun c => decide (c ∈ must)))), true⟩]
      else [])
    else []
  (sortStrs (drop_duplicates df.columns)).foldl (fun acc col =>
    if colNunique df col == df.rows.length && !(df.rows.any (fun r => (r col).isNone)) &&
        !(acc.any (fun ck => decide (ck.columns.toFinset = {col}))) then
      acc ++ [⟨[col], true⟩]
    else acc) base

/-- The confidence-1.0 records viewed as plain FDs (the confirmed set). -/
def confirmedFDs (fds : List FDRecord) : List FD :=
  (fds.filter (fun fd => fd.confidence == 1)).map (fun r => ⟨r.determinant, r.dependent⟩)

/-- **C2 (amended).** `find_candidate_keys` records `must_be_in_key` as a
candidate key when `must_be_in_key` is nonempty and `must_be_in_key` together
with the dependents obtained by a *single* application of the confirmed FDs
(not the closure) covers all columns. -/
theorem find_candidate_keys_one_step (df : Df) (fds : List FDRecord)
    (hne : (mustBeInKey df fds).Nonempty)
    (hdet : oneStepDetermined df fds ∪ mustBeInKey df fds = df.columns.toFinset) :
    ∃ ck ∈ find_candidate_keys df fds,
      ck.columns.toFinset = mustBeInKey df fds ∧ ck.is_minimal = true := by
  refine ⟨⟨sortStrs (drop_duplicates (df.columns.filter
      (fun c => decide (c ∈ mustBeInKey df fds)))), true⟩, ?_, ?_, rfl⟩
  · unfold find_candidate_keys
    refine mem_foldl_of_mem_acc _ ?_ _ _ _ ?_
    · intro acc a x hx
      by_cases h : (colNunique df a == df.rows.length &&
          !(df.rows.any (fun r => (r a).isNone)) &&
          !(acc.any (fun ck => decide (ck.columns.toFinset = {a})))) = true
      · simp only [h, if_true]
        exact List.mem_append_left _ hx
      · simp only [h, Bool.false_eq_true, if_false]
        exact hx
    · rw [if_pos hne, if_pos hdet]
      exact List.mem_singleton_self _
  · rw [toFinset_sortStrs, toFinset_drop_duplicates, List.toFinset_filter]
    have : (df.columns.toFinset.filter fun a => decide (a ∈ mustBeInKey df fds) = true) =
        df.columns.toFinset.filter (fun a => a ∈ mustBeInKey df fds) := by
      apply Finset.filter_congr
      intro x _
      simp
    rw [this, Finset.filter_mem_eq_inter]
    exact Finset.inter_eq_right.mpr (Finset.sdiff_subset)

/-- Confirmed records `A→B`, `B→C` over columns `A, B, C`. -/
def c2Recs : List FDRecord :=
  [⟨["A"], "B", true, 1, 0, 1, "confirmed"⟩, ⟨["B"], "C", true, 1, 0, 1, "confirmed"⟩]

/-- Two identical all-non-null rows over `A, B, C` (so no column is unique
and the trivial-key loop records nothing). -/
def c2Df : Df := ⟨["A", "B", "C"], [fun _ => some "1", fun _ => some "1"]⟩

/-- **C2 (counterexample).** For `A→B, B→C` confirmed, `must_be_in_key = {A}`
has closure `{A,B,C}` = all columns, yet `find_candidate_keys` records *no*
candidate key: the code checks one-step derivation, not the closure, and
`B→C`'s determinant is not inside `{A}`. -/
theorem find_candidate_keys_not_closure_based :
    compute_closure (mustBeInKey c2Df c2Recs) (confirmedFDs c2Recs) = c2Df.columns.toFinset ∧
    find_candidate_keys c2Df c2Recs = [] := ⟨by decide, by decide⟩

/-- Columns `A, B` with the single confirmed record `A→B`. -/
def c2WitnessRecs : List FDRecord := [⟨["A"], "B", true, 1, 0, 1, "confirmed"⟩]

/-- Frame for the C2 witness. -/
def c2WitnessDf : Df := ⟨["A", "B"], [fun _ => some "1", fun _ => some "1"]⟩

/-- Witness for C2: on the concrete input, one-step coverage holds and the
key `{A}` is recorded. -/
theorem find_candidate_keys_one_step_witness :
    ∃ ck ∈ find_candidate_keys c2WitnessDf c2WitnessRecs,
      ck.columns.toFinset = mustBeInKey c2WitnessDf c2WitnessRecs ∧ ck.is_minimal = true :=
  find_candidate_keys_one_step c2WitnessDf c2WitnessRecs (by decide) (by decide)

/-- A decomposition table (normalize.py): name, ordered columns, primary key,
and for 3NF synthesis the source FD group (determinant, dependents). -/
structure Table where
  name : String
  columns : List String
  primary_key : List String
  source_fd : Option (List String × List String)
deriving DecidableEq, Repr

/-- `generate_table_name(key_cols, dep_cols)` (normalize.py lines 218-225). -/
def generate_table_name (key_cols dep_cols : List String) : String :=
  if dep_cols.length = 1 then dep_cols.headD "" ++ "s"
  else if key_cols.length = 1 then (key_cols.headD "").replace "_id" "" ++ "s"
  else String.intercalate "_" (key_cols.take 2)

/-- Add one FD to the determinant-grouped dict (`fd_groups[det].append(dep)`,
insertion order preserved as in a Python dict). -/
def addToGroups (acc : List (List String × List String)) (det : List String) (dep : String) :
    List (List String × List String) :=
  match acc with
  | [] => [(det, [dep])]
  | (d, deps) :: rest =>
    if d = det then (d, deps ++ [dep]) :: rest
    else (d, deps) :: addToGroups rest det dep

/-- Group the minimal cover by sorted determinant
(normalize.py lines 100-103). -/
def fdGroups (cover : List FD) : List (List String × List String) :=
  cover.foldl (fun acc fd => addToGroups acc (sortStrs fd.determinant) fd.dependent) []

/-- Mutation `main_table["columns"].extend(uncovered)` on the first table
with `source_fd is None` (normalize.py lines 135-137): returns the updated
list and whether such a table was found. -/
def extendFirstMain : List Table → List String → (List Table × Bool)
  | [], _ => ([], false)
  | t :: rest, extra =>
    if t.source_fd = none then
      ({ t with columns := t.columns ++ extra } :: rest, true)
    else
      let r := extendFirstMain rest extra
      (t :: r.1, r.2)

/-- The union of the column sets of a list of tables (also the running
`covered_attrs` of normalize.py line 117). -/
def unionCols (tables : List Table) : Finset String :=
  tables.foldl (fun s t => s ∪ t.columns.toFinset) ∅

/-- The per-FD-group tables of 3NF synthesis (normalize.py lines 108-117):
columns = determinant ++ dependents, primary key = determinant. -/
def fdTables3NF (fds : List FD) : List Table :=
  (fdGroups (compute_minimal_cover fds)).map (fun g =>
    ⟨generate_table_name g.1 g.2, g.1 ++ g.2, g.1, some (g.1, g.2)⟩)

/-- The FD-group tables plus, when the first candidate key is not covered by
them, the dedicated `main_keys` table (normalize.py lines 119-129). -/
def tables1Stage (fds : List FD) (candidate_keys : List CandidateKey) : List Table :=
  let fdTables := fdTables3NF fds
  match candidate_keys with
  | [] => fdTables
  | ck0 :: _ =>
    if ck0.columns.toFinset ⊆ unionCols fdTables then fdTables
    else fdTables ++ [⟨"main_keys", sortStrs (drop_duplicates ck0.columns),
        sortStrs (drop_duplicates ck0.columns), none⟩]

/-- `decompose_3nf(columns, fds, candidate_keys)` (normalize.py lines
95-147).  Python materializes the *sets* `key_cols` and `uncovered` into
lists in unspecified order; the embedding uses their sorted deduplicated
lists (every claim below is order-insensitive). -/
def decompose_3nf (columns : List String) (fds : List FD)
    (candidate_keys : List CandidateKey) : List Table :=
  let covered := unionCols (fdTables3NF fds)
  let tables1 := tables1Stage fds candidate_keys
  let uncovered := columns.toFinset \ covered
  let uncoveredList := sortStrs (drop_duplicates (columns.filter (fun c => decide (c ∈ uncovered))))
  match candidate_keys with
  | [] => tables1
  | ck0 :: _ =>
    if uncovered.Nonempty then
      let r := extendFirstMain tables1 uncoveredList
      if r.2 then r.1
      else tables1 ++ [⟨"main", ck0.columns ++ uncoveredList, ck0.columns, none⟩]
    else tables1

lemma reduce_det_shape (result : List FD) (fd : FD) :
    (reduce_det result fd).dependent = fd.dependent ∧
      ∀ a ∈ (reduce_det result fd).determinant, a ∈ fd.determinant := by
  unfold reduce_det
  by_cases hlen : 1 < fd.determinant.length
  · simp only [if_pos hlen]
    cases hf : fd.determinant.find? (fun attr =>
        is_derivable ⟨fd.determinant.filter (fun a => a != attr), fd.dependent⟩ result) with
    | none => exact ⟨rfl, fun a ha => ha⟩
    | some attr =>
      refine ⟨rfl, fun a ha => ?_⟩
      exact (List.mem_filter.mp ha).1
  · simp only [if_neg hlen]
    exact ⟨trivial, fun a ha => ha⟩

/-- Attribute containment is preserved from the input FDs to the cover. -/
lemma minimal_cover_attrs {P : String → Prop} (fds : List FD)
    (h : ∀ fd ∈ fds, (∀ a ∈ fd.determinant, P a) ∧ P fd.dependent) :
    ∀ g ∈ compute_minimal_cover fds, (∀ a ∈ g.determinant, P a) ∧ P g.dependent := by
  intro g hg
  unfold compute_minimal_cover at hg
  rcases List.mem_map.mp hg with ⟨r, hr, rfl⟩
  have hrmin : r ∈ fds.map sortFD := mem_removeRedundantAux hr
  rcases List.mem_map.mp hrmin with ⟨f, hf, rfl⟩
  have hfP := h f hf
  have hsort : ∀ a ∈ (sortFD f).determinant, P a := by
    intro a ha
    exact hfP.1 a (mem_sortStrs.mp ha)
  rcases reduce_det_shape (removeRedundantAux [] (fds.map sortFD)) (sortFD f) with ⟨hdep, hdet⟩
  refine ⟨fun a ha => hsort a (hdet a ha), ?_⟩
  rw [hdep]
  exact hfP.2

lemma addToGroups_attrs {P : String → Prop} {det : List String} {dep : String}
    (hdet : ∀ a ∈ det, P a) (hdep : P dep) :
    ∀ (acc : List (List String × List String)),
      (∀ g ∈ acc, (∀ a ∈ g.1, P a) ∧ ∀ a ∈ g.2, P a) →
      ∀ g ∈ addToGroups acc det dep, (∀ a ∈ g.1, P a) ∧ ∀ a ∈ g.2, P a := by
  intro acc
  induction acc with
  | nil =>
    intro _ g hg
    simp only [addToGroups, List.mem_singleton] at hg
    subst hg
    exact ⟨hdet, by simpa using hdep⟩
  | cons p rest ih =>
    intro hacc g hg
    rcases p with ⟨d, deps⟩
    by_cases hd : d = det
    · simp only [addToGroups, if_pos hd, List.mem_cons] at hg
      rcases hg with hg | hg
      · subst hg
        have hp := hacc (d, deps) (List.mem_cons_self _ _)
        refine ⟨hp.1, fun a ha => ?_⟩
        rcases List.mem_append.mp ha with h | h
        · exact hp.2 a h
        · rcases List.mem_singleton.mp h with rfl
          exact hdep
      · exact hacc g (List.mem_cons_of_mem _ hg)
    · simp only [addToGroups, if_neg hd, List.mem_cons] at hg
      rcases hg with hg | hg
      · subst hg
        exact hacc (d, deps) (List.mem_cons_self _ _)
      · exact ih (fun q hq => hacc q (List.mem_cons_of_mem _ hq)) g hg

lemma fdGroups_attrs {P : String → Prop} (cover : List FD)
    (h : ∀ fd ∈ cover, (∀ a ∈ fd.determinant, P a) ∧ P fd.dependent) :
    ∀ g ∈ fdGroups cover, (∀ a ∈ g.1, P a) ∧ ∀ a ∈ g.2, P a := by
  unfold fdGroups
  suffices haux : ∀ (l : List FD) (acc : List (List String × List String)),
      (∀ fd ∈ l, (∀ a ∈ fd.determinant, P a) ∧ P fd.dependent) →
      (∀ g ∈ acc, (∀ a ∈ g.1, P a) ∧ ∀ a ∈ g.2, P a) →
      ∀ g ∈ l.foldl (fun acc fd => addToGroups acc (sortStrs fd.determinant) fd.dependent) acc,
        (∀ a ∈ g.1, P a) ∧ ∀ a ∈ g.2, P a by
    exact haux cover [] h (by simp)
  intro l
  induction l with
  | nil => intro acc _ hacc; simpa using hacc
  | cons fd l ih =>
    intro acc hl hacc
    simp only [List.foldl_cons]
    refine ih _ (fun x hx => hl x (List.mem_cons_of_mem _ hx)) ?_
    have hfd := hl fd (List.mem_cons_self _ _)
    exact addToGroups_attrs (fun a ha => hfd.1 a (mem_sortStrs.mp ha)) hfd.2 acc hacc

lemma foldl_union_mem (ts : List Table) (s : Finset String) (x : String) :
    x ∈ ts.foldl (fun s t => s ∪ t.columns.toFinset) s ↔
      x ∈ s ∨ ∃ t ∈ ts, x ∈ t.columns.toFinset := by
  induction ts generalizing s with
  | nil => simp
  | cons t ts ih =>
    simp only [List.foldl_cons, ih, Finset.mem_union, List.mem_cons]
    constructor
    · rintro ((h | h) | ⟨u, hu, hx⟩)
      · exact Or.inl h
      · exact Or.inr ⟨t, Or.inl rfl, h⟩
      · exact Or.inr ⟨u, Or.inr hu, hx⟩
    · rintro (h | ⟨u, hu | hu, hx⟩)
      · exact Or.inl (Or.inl h)
      · subst hu; exact Or.inl (Or.inr hx)
      · exact Or.inr ⟨u, hu, hx⟩

lemma mem_unionCols {ts : List Table} {x : String} :
    x ∈ unionCols ts ↔ ∃ t ∈ ts, x ∈ t.columns.toFinset := by
  rw [unionCols, foldl_union_mem]
  simp

lemma unionCols_append (a b : List Table) :
    unionCols (a ++ b) = unionCols a ∪ unionCols b := by
  ext x
  simp only [mem_unionCols, Finset.mem_union, List.mem_append]
  constructor
  · rintro ⟨t, ht | ht, hx⟩
    · exact Or.inl ⟨t, ht, hx⟩
    · exact Or.inr ⟨t, ht, hx⟩
  · rintro (⟨t, ht, hx⟩ | ⟨t, ht, hx⟩)
    · exact ⟨t, Or.inl ht, hx⟩
    · exact ⟨t, Or.inr ht, hx⟩

lemma extendFirstMain_not_found :
    ∀ {ts : List Table} {extra : List String},
      (extendFirstMain ts extra).2 = false → (extendFirstMain ts extra).1 = ts := by
  intro ts extra
  induction ts with
  | nil => intro _; rfl
  | cons t rest ih =>
    intro h
    by_cases hm : t.source_fd = none
    · simp [extendFirstMain, hm] at h
    · simp only [extendFirstMain, if_neg hm] at h ⊢
      rw [ih h]

lemma extendFirstMain_found_union :
    ∀ {ts : List Table} {extra : List String},
      (extendFirstMain ts extra).2 = true →
      unionCols (extendFirstMain ts extra).1 = unionCols ts ∪ extra.toFinset := by
  intro ts extra
  induction ts with
  | nil => intro h; simp [extendFirstMain] at h
  | cons t rest ih =>
    intro h
    by_cases hm : t.source_fd = none
    · simp only [extendFirstMain, if_pos hm]
      show unionCols ({ t with columns := t.columns ++ extra } :: rest) = _
      ext x
      simp only [mem_unionCols, List.mem_cons, Finset.mem_union]
      constructor
      · rintro ⟨u, hu | hu, hx⟩
        · rw [hu] at hx
          simp only [List.toFinset_append, Finset.mem_union] at hx
          rcases hx with hx | hx
          · exact Or.inl ⟨t, Or.inl rfl, hx⟩
          · exact Or.inr hx
        · exact Or.inl ⟨u, Or.inr hu, hx⟩
      · rintro (⟨u, hu | hu, hx⟩ | hx)
        · refine ⟨{ t with columns := t.columns ++ extra }, Or.inl rfl, ?_⟩
          simp only [List.toFinset_append, Finset.mem_union]
          rw [hu] at hx
          exact Or.inl hx
        · exact ⟨u, Or.inr hu, hx⟩
        · refine ⟨{ t with columns := t.columns ++ extra }, Or.inl rfl, ?_⟩
          simp only [List.toFinset_append, Finset.mem_union]
          exact Or.inr hx
    · simp only [extendFirstMain, if_neg hm] at h ⊢
      show unionCols (t :: (extendFirstMain rest extra).1) = _
      have hih := ih h
      ext x
      simp only [mem_unionCols, List.mem_cons, Finset.mem_union] at hih ⊢
      constructor
      · rintro ⟨u, hu | hu, hx⟩
        · exact Or.inl ⟨u, Or.inl hu, hx⟩
        · have h0 : x ∈ unionCols (extendFirstMain rest extra).1 := mem_unionCols.mpr ⟨u, hu, hx⟩
          rw [hih] at h0
          rcases Finset.mem_union.mp h0 with h2 | h2
          · rcases mem_unionCols.mp h2 with ⟨v, hv, hx2⟩
            exact Or.inl ⟨v, Or.inr hv, hx2⟩
          · exact Or.inr h2
      · rintro (⟨u, hu | hu, hx⟩ | hx)
        · exact ⟨u, Or.inl hu, hx⟩
        · have h0 : x ∈ unionCols (extendFirstMain rest extra).1 := by
            rw [hih]
            exact Finset.mem_union_left _ (mem_unionCols.mpr ⟨u, hu, hx⟩)
          rcases mem_unionCols.mp h0 with ⟨v, hv, hx2⟩
          exact ⟨v, Or.inr hv, hx2⟩
        · have h0 : x ∈ unionCols (extendFirstMain rest extra).1 := by
            rw [hih]
            exact Finset.mem_union_right _ hx
          rcases mem_unionCols.mp h0 with ⟨v, hv, hx2⟩
          exact ⟨v, Or.inr hv, hx2⟩

lemma unionCols_singleton (t : Table) : unionCols [t] = t.columns.toFinset := by
  ext x
  simp [mem_unionCols]

lemma toFinset_filter_mem (columns : List String) (s : Finset String)
    (hs : s ⊆ columns.toFinset) :
    (sortStrs (drop_duplicates (columns.filter (fun c => decide (c ∈ s))))).toFinset = s := by
  rw [toFinset_sortStrs, toFinset_drop_duplicates, List.toFinset_filter]
  have he : (columns.toFinset.filter fun a => decide (a ∈ s) = true) =
      columns.toFinset.filter (fun a => a ∈ s) := by
    apply Finset.filter_congr
    intro x _
    simp
  rw [he, Finset.filter_mem_eq_inter]
  exact Finset.inter_eq_right.mpr hs

lemma fdTables3NF_subset (columns : List String) (fds : List FD)
    (hfds : ∀ fd ∈ fds, (∀ a ∈ fd.determinant, a ∈ columns.toFinset) ∧
      fd.dependent ∈ columns.toFinset) :
    unionCols (fdTables3NF fds) ⊆ columns.toFinset := by
  intro x hx
  rcases mem_unionCols.mp hx with ⟨t, ht, hxt⟩
  rcases List.mem_map.mp ht with ⟨g, hg, rfl⟩
  have hga := fdGroups_attrs (compute_minimal_cover fds) (minimal_cover_attrs fds hfds) g hg
  simp only [List.toFinset_append, Finset.mem_union, List.mem_toFinset] at hxt
  rcases hxt with h | h
  · exact hga.1 x h
  · exact hga.2 x h



lemma tables1Stage_bounds (columns : List String) (fds : List FD)
    (ck0 : CandidateKey) (cks : List CandidateKey)
    (hfds : unionCols (fdTables3NF fds) ⊆ columns.toFinset)
    (hck0 : ck0.columns.toFinset ⊆ columns.toFinset) :
    unionCols (fdTables3NF fds) ⊆ unionCols (tables1Stage fds (ck0 :: cks)) ∧
      unionCols (tables1Stage fds (ck0 :: cks)) ⊆ columns.toFinset := by
  unfold tables1Stage
  simp only []
  by_cases hc1 : ck0.columns.toFinset ⊆ unionCols (fdTables3NF fds)
  · simp only [hc1, if_true]
    exact ⟨subset_rfl, hfds⟩
  · simp only [hc1, if_false]
    rw [unionCols_append, unionCols_singleton]
    constructor
    · exact Finset.subset_union_left
    · simp only []
      rw [toFinset_sortStrs, toFinset_drop_duplicates]
      exact Finset.union_subset hfds hck0

/-- **C3 (amended).** When at least one candidate key is supplied, the first
key's attributes lie within the column list, and every FD mentions only
listed columns, the union of the columns of the tables produced by
`decompose_3nf` equals the original column set.  (Without a candidate key an
uncovered attribute is silently dropped, and FD or key attributes outside the
column list leak into the output — see the counterexample.) -/
theorem decompose_3nf_covers (columns : List String) (fds : List FD)
    (ck0 : CandidateKey) (cks : List CandidateKey)
    (hfds : ∀ fd ∈ fds, (∀ a ∈ fd.determinant, a ∈ columns.toFinset) ∧
      fd.dependent ∈ columns.toFinset)
    (hck0 : ck0.columns.toFinset ⊆ columns.toFinset) :
    unionCols (decompose_3nf columns fds (ck0 :: cks)) = columns.toFinset := by
  have hcov := fdTables3NF_subset columns fds hfds
  obtain ⟨hTcov, hTsub⟩ := tables1Stage_bounds columns fds ck0 cks hcov hck0
  unfold decompose_3nf
  simp only []
  by_cases hc2 : (columns.toFinset \ unionCols (fdTables3NF fds)).Nonempty
  · simp only [hc2, if_true]
    have hULfin : (sortStrs (drop_duplicates (columns.filter
        (fun c => decide (c ∈ columns.toFinset \ unionCols (fdTables3NF fds)))))).toFinset =
        columns.toFinset \ unionCols (fdTables3NF fds) :=
      toFinset_filter_mem columns _ (Finset.sdiff_subset)
    by_cases hfound : (extendFirstMain (tables1Stage fds (ck0 :: cks))
        (sortStrs (drop_duplicates (columns.filter
          (fun c => decide (c ∈ columns.toFinset \ unionCols (fdTables3NF fds))))))).2 = true
    · rw [if_pos hfound, extendFirstMain_found_union hfound, hULfin]
      apply subset_antisymm
      · exact Finset.union_subset hTsub Finset.sdiff_subset
      · intro x hx
        by_cases hxc : x ∈ unionCols (fdTables3NF fds)
        · exact Finset.mem_union_left _ (hTcov hxc)
        · exact Finset.mem_union_right _ (Finset.mem_sdiff.mpr ⟨hx, hxc⟩)
    · rw [if_neg hfound, unionCols_append, unionCols_singleton]
      show unionCols (tables1Stage fds (ck0 :: cks)) ∪ (ck0.columns ++ _).toFinset = _
      rw [List.toFinset_append, hULfin]
      apply subset_antisymm
      · refine Finset.union_subset hTsub (Finset.union_subset hck0 Finset.sdiff_subset)
      · intro x hx
        by_cases hxc : x ∈ unionCols (fdTables3NF fds)
        · exact Finset.mem_union_left _ (hTcov hxc)
        · exact Finset.mem_union_right _
            (Finset.mem_union_right _ (Finset.mem_sdiff.mpr ⟨hx, hxc⟩))
  · simp only [hc2, if_false]
    have hCFsub : columns.toFinset ⊆ unionCols (fdTables3NF fds) := by
      rw [Finset.not_nonempty_iff_eq_empty, Finset.sdiff_eq_empty_iff_subset] at hc2
      exact hc2
    exact subset_antisymm hTsub (subset_trans hCFsub hTcov)

/-- **C3 (counterexample).** Three concrete runs where the union of the
decomposed tables' columns differs from the original column set: (1) with no
candidate key the uncovered column `C` is dropped; (2) an FD dependent `B`
outside the column list leaks into the output; (3) a candidate-key column `B`
outside the column list leaks into the output. -/
theorem decompose_3nf_not_always_covering :
    unionCols (decompose_3nf ["A", "B", "C"] [⟨["A"], "B"⟩] []) ≠
      (["A", "B", "C"] : List String).toFinset ∧
    unionCols (decompose_3nf ["A"] [⟨["A"], "B"⟩] [⟨["A"], true⟩]) ≠
      (["A"] : List String).toFinset ∧
    unionCols (decompose_3nf ["A"] [] [⟨["A", "B"], true⟩]) ≠
      (["A"] : List String).toFinset :=
  ⟨by decide, by decide, by decide⟩

/-- Witness for C3: a concrete run of the amended coverage theorem. -/
theorem decompose_3nf_covers_witness :
    unionCols (decompose_3nf ["A", "B", "C"] [⟨["A"], "B"⟩] [⟨["A", "C"], true⟩]) =
      (["A", "B", "C"] : List String).toFinset :=
  decompose_3nf_covers ["A", "B", "C"] [⟨["A"], "B"⟩] ⟨["A", "C"], true⟩ []
    (by decide) (by decide)

/-- The FDs relevant to an attribute set: determinant and dependent both
inside it (normalize.py lines 159-161 and 205-207). -/
def relevantFDs (fds : List FD) (col_set : Finset String) : List FD :=
  fds.filter (fun fd =>
    decide (fd.determinant.toFinset ⊆ col_set) && decide (fd.dependent ∈ col_set))

/-- `find_key(columns, fds, candidate_keys)` (normalize.py lines 195-215),
over the set of columns: first candidate key fitting inside the columns;
otherwise the first relevant FD whose determinant's closure (under the
relevant FDs) covers the columns; otherwise all columns. -/
def find_key (col_set : Finset String) (fds : List FD)
    (candidate_keys : List CandidateKey) : Finset String :=
  match candidate_keys.find? (fun ck => decide (ck.columns.toFinset ⊆ col_set)) with
  | some ck => ck.columns.toFinset
  | none =>
    match (relevantFDs fds col_set).find? (fun fd =>
        decide (col_set ⊆ compute_closure fd.determinant.toFinset
          (relevantFDs fds col_set))) with
    | some fd => fd.determinant.toFinset
    | none => col_set

/-- A BCNF decomposition table.  Python builds its column and key lists from
sets in unspecified iteration order and attaches a generated name afterward;
the embedding keeps the sets themselves (every claim about the BCNF output is
insensitive to order and name). -/
structure BTable where
  columns : Finset String
  primary_key : Finset String
deriving DecidableEq

/-- The recursive `bcnf_decompose(cols, fds)` (normalize.py lines 157-181):
find the first relevant FD whose determinant is not a superkey of the current
attribute set, split into (determinant ∪ dependent) and
(cols − dependent ∪ determinant), and recurse with the relevant FDs.  Python
recurses without bound; the `fuel` argument models the call stack, and
`none` models non-termination (the fuel is shown sufficient under the
`dependent ∉ determinant` invariant). -/
def bcnfRec (candidate_keys : List CandidateKey) :
    ℕ → Finset String → List FD → Option (List BTable)
  | 0, _, _ => none
  | fuel + 1, col_set, fds =>
    let relevant := relevantFDs fds col_set
    match relevant.find? (fun fd =>
        !(decide (col_set ⊆ compute_closure fd.determinant.toFinset relevant))) with
    | some fd =>
      let r1 := fd.determinant.toFinset ∪ {fd.dependent}
      let r2 := (col_set \ {fd.dependent}) ∪ fd.determinant.toFinset
      match bcnfRec candidate_keys fuel r1 relevant,
          bcnfRec candidate_keys fuel r2 relevant with
      | some t1, some t2 => some (t1 ++ t2)
      | _, _ => none
    | none => some [⟨col_set, find_key col_set fds candidate_keys⟩]

/-- `decompose_bcnf(columns, fds, candidate_keys)` (normalize.py lines
150-192), with fuel `columns.length + 1` — strictly more than the attribute
count, hence never exhausted when the recursion terminates (see C7). -/
def decompose_bcnf (columns : List String) (fds : List FD)
    (candidate_keys : List CandidateKey) : Option (List BTable) :=
  bcnfRec candidate_keys (columns.length + 1) columns.toFinset fds

/-- The BCNF condition checked by the algorithm for one attribute set: every
relevant FD's determinant closes (under the relevant FDs) to the full set. -/
def BCNFok (fds : List FD) (cols : Finset String) : Prop :=
  ∀ fd ∈ relevantFDs fds cols,
    cols ⊆ compute_closure fd.determinant.toFinset (relevantFDs fds cols)

lemma mem_relevantFDs {fds : List FD} {col_set : Finset String} {fd : FD} :
    fd ∈ relevantFDs fds col_set ↔
      fd ∈ fds ∧ fd.determinant.toFinset ⊆ col_set ∧ fd.dependent ∈ col_set := by
  simp [relevantFDs, List.mem_filter]

lemma relevantFDs_stable {fds : List FD} {cols cols2 : Finset String}
    (h : cols2 ⊆ cols) :
    relevantFDs (relevantFDs fds cols) cols2 = relevantFDs fds cols2 := by
  unfold relevantFDs
  rw [List.filter_filter]
  apply List.filter_congr
  intro fd _
  by_cases h2 : fd.determinant.toFinset ⊆ cols2 ∧ fd.dependent ∈ cols2
  · have hc : fd.determinant.toFinset ⊆ cols ∧ fd.dependent ∈ cols :=
      ⟨subset_trans h2.1 h, h h2.2⟩
    simp [h2.1, h2.2, hc.1, hc.2]
  · rw [not_and_or] at h2
    rcases h2 with h2 | h2 <;> simp [h2]

lemma BCNFok_congr {F G : List FD} {cols : Finset String}
    (h : relevantFDs F cols = relevantFDs G cols) : BCNFok F cols ↔ BCNFok G cols := by
  unfold BCNFok
  rw [h]

lemma bcnfRec_sound (cks : List CandidateKey) :
    ∀ (fuel : ℕ) (col_set : Finset String) (fds : List FD) (tables : List BTable),
      bcnfRec cks fuel col_set fds = some tables →
      ∀ t ∈ tables, t.columns ⊆ col_set ∧ BCNFok fds t.columns := by
  intro fuel
  induction fuel with
  | zero =>
    intro c f tb h
    simp [bcnfRec] at h
  | succ fuel ih =>
    intro col_set fds tables h t ht
    simp only [bcnfRec] at h
    split at h
    · rename_i fd hf
      split at h
      · rename_i t1 t2 h1 h2
        simp only [Option.some.injEq] at h
        subst h
        have hmem := List.mem_of_find?_eq_some hf
        have hrel := mem_relevantFDs.mp hmem
        have hr1sub : fd.determinant.toFinset ∪ {fd.dependent} ⊆ col_set :=
          Finset.union_subset hrel.2.1 (by simpa using hrel.2.2)
        have hr2sub : (col_set \ {fd.dependent}) ∪ fd.determinant.toFinset ⊆ col_set :=
          Finset.union_subset Finset.sdiff_subset hrel.2.1
        rcases List.mem_append.mp ht with htm | htm
        · obtain ⟨hsub, hok⟩ := ih _ _ t1 h1 t htm
          have hcols : t.columns ⊆ col_set := subset_trans hsub hr1sub
          exact ⟨hcols, (BCNFok_congr (relevantFDs_stable hcols)).mp hok⟩
        · obtain ⟨hsub, hok⟩ := ih _ _ t2 h2 t htm
          have hcols : t.columns ⊆ col_set := subset_trans hsub hr2sub
          exact ⟨hcols, (BCNFok_congr (relevantFDs_stable hcols)).mp hok⟩
      all_goals simp at h
    · rename_i hf
      simp only [Option.some.injEq] at h
      subst h
      rcases List.mem_singleton.mp ht with rfl
      refine ⟨subset_rfl, ?_⟩
      intro g hg
      have := List.find?_eq_none.mp hf g hg
      simpa using this

/-- **C5.** Every table of a successful BCNF decomposition satisfies the BCNF
condition: each FD relevant to the table closes, from its determinant and
under the relevant FDs, to the table's full column set. -/
theorem decompose_bcnf_no_violations (columns : List String) (fds : List FD)
    (cks : List CandidateKey) (tables : List BTable)
    (h : decompose_bcnf columns fds cks = some tables) :
    ∀ t ∈ tables, ∀ fd ∈ relevantFDs fds t.columns,
      t.columns ⊆ compute_closure fd.determinant.toFinset (relevantFDs fds t.columns) :=
  fun t ht => (bcnfRec_sound cks _ _ _ tables h t ht).2

/-- Witness for C5: a concrete decomposition of `{A,B,C}` under `B → C`,
whose first output table is `{B,C}`; its relevant FD `B → C` closes to the
whole table. -/
theorem decompose_bcnf_no_violations_witness :
    (⟨{"B", "C"}, {"B"}⟩ : BTable).columns ⊆
      compute_closure ({"B"} : Finset String)
        (relevantFDs [⟨["B"], "C"⟩] (⟨{"B", "C"}, {"B"}⟩ : BTable).columns) := by
  have happ := decompose_bcnf_no_violations ["A", "B", "C"] [⟨["B"], "C"⟩] []
    [⟨{"B", "C"}, {"B"}⟩, ⟨{"A", "B"}, {"A", "B"}⟩] (by decide)
    ⟨{"B", "C"}, {"B"}⟩ (by decide) ⟨["B"], "C"⟩ (by decide)
  simpa using happ

lemma bcnfRec_isSome (cks : List CandidateKey) :
    ∀ (fuel : ℕ) (col_set : Finset String) (fds : List FD),
      (∀ fd ∈ fds, fd.dependent ∉ fd.determinant) →
      col_set.card < fuel → (bcnfRec cks fuel col_set fds).isSome := by
  intro fuel
  induction fuel with
  | zero => intro c f _ h; omega
  | succ fuel ih =>
    intro col_set fds hinv hcard
    simp only [bcnfRec]
    cases hf : (relevantFDs fds col_set).find? (fun fd =>
        !(decide (col_set ⊆ compute_closure fd.determinant.toFinset
          (relevantFDs fds col_set)))) with
    | none => simp
    | some fd =>
      have hmem := List.mem_of_find?_eq_some hf
      have hrel := mem_relevantFDs.mp hmem
      have hviol : ¬(col_set ⊆ compute_closure fd.determinant.toFinset
          (relevantFDs fds col_set)) := by
        have := List.find?_some hf
        simpa using this
      have hr1ss : fd.determinant.toFinset ∪ {fd.dependent} ⊂ col_set := by
        refine ssubset_of_subset_of_ne
          (Finset.union_subset hrel.2.1 (by simpa using hrel.2.2)) ?_
        intro he
        apply hviol
        have hsub2 : fd.determinant.toFinset ∪ {fd.dependent} ⊆
            compute_closure fd.determinant.toFinset (relevantFDs fds col_set) :=
          Finset.union_subset (subset_compute_closure _ _)
            (by simpa using dependent_mem_compute_closure hmem)
        rw [he] at hsub2
        exact hsub2
      have hr2ss : (col_set \ {fd.dependent}) ∪ fd.determinant.toFinset ⊂ col_set := by
        refine ssubset_of_subset_of_ne
          (Finset.union_subset Finset.sdiff_subset hrel.2.1) ?_
        intro he
        have hdep : fd.dependent ∈ (col_set \ {fd.dependent}) ∪ fd.determinant.toFinset := by
          rw [he]
          exact hrel.2.2
        rcases Finset.mem_union.mp hdep with hcon | hcon
        · exact (Finset.mem_sdiff.mp hcon).2 (Finset.mem_singleton_self _)
        · exact hinv fd hrel.1 (List.mem_toFinset.mp hcon)
      have hinv2 : ∀ g ∈ relevantFDs fds col_set, g.dependent ∉ g.determinant :=
        fun g hg => hinv g (mem_relevantFDs.mp hg).1
      have i1 := ih (fd.determinant.toFinset ∪ {fd.dependent}) (relevantFDs fds col_set)
        hinv2 (by have := Finset.card_lt_card hr1ss; omega)
      have i2 := ih ((col_set \ {fd.dependent}) ∪ fd.determinant.toFinset)
        (relevantFDs fds col_set) hinv2 (by have := Finset.card_lt_card hr2ss; omega)
      obtain ⟨t1, e1⟩ := Option.isSome_iff_exists.mp i1
      obtain ⟨t2, e2⟩ := Option.isSome_iff_exists.mp i2
      simp [e1, e2]

/-- **C7.** Under the invariant `dependent ∉ determinant`, the recursive BCNF
decomposition terminates for every input: each split recurses on attribute
sets strictly smaller than the parent, so fuel `columns.length + 1` is never
exhausted and a result is always produced. -/
theorem decompose_bcnf_terminates (columns : List String) (fds : List FD)
    (cks : List CandidateKey)
    (hinv : ∀ fd ∈ fds, fd.dependent ∉ fd.determinant) :
    (decompose_bcnf columns fds cks).isSome :=
  bcnfRec_isSome cks (columns.length + 1) columns.toFinset fds hinv
    (by have := List.toFinset_card_le columns; omega)

/-- Witness for C7: the decomposition of `{A,B,C}` under `B → C` (dependent
not in determinant) produces a result. -/
theorem decompose_bcnf_terminates_witness :
    (decompose_bcnf ["A", "B", "C"] [⟨["B"], "C"⟩] []).isSome :=
  decompose_bcnf_terminates ["A", "B", "C"] [⟨["B"], "C"⟩] [] (by decide)

lemma find_key_subset (col_set : Finset String) (fds : List FD)
    (cks : List CandidateKey) : find_key col_set fds cks ⊆ col_set := by
  unfold find_key
  split
  · rename_i ck hc
    have := List.find?_some hc
    simpa using this
  · split
    · rename_i fd hf
      exact (mem_relevantFDs.mp (List.mem_of_find?_eq_some hf)).2.1
    · exact subset_rfl

lemma bcnfRec_pk (cks : List CandidateKey) :
    ∀ (fuel : ℕ) (col_set : Finset String) (fds : List FD) (tables : List BTable),
      bcnfRec cks fuel col_set fds = some tables →
      ∀ t ∈ tables, t.primary_key ⊆ t.columns := by
  intro fuel
  induction fuel with
  | zero =>
    intro c f tb h
    simp [bcnfRec] at h
  | succ fuel ih =>
    intro col_set fds tables h t ht
    simp only [bcnfRec] at h
    split at h
    · rename_i fd hf
      split at h
      · rename_i t1 t2 h1 h2
        simp only [Option.some.injEq] at h
        subst h
        rcases List.mem_append.mp ht with htm | htm
        · exact ih _ _ t1 h1 t htm
        · exact ih _ _ t2 h2 t htm
      all_goals simp at h
    · rename_i hf
      simp only [Option.some.injEq] at h
      subst h
      rcases List.mem_singleton.mp ht with rfl
      exact find_key_subset col_set fds cks

lemma pk_fdTables3NF (fds : List FD) :
    ∀ t ∈ fdTables3NF fds, ∀ a ∈ t.primary_key, a ∈ t.columns := by
  intro t ht a ha
  rcases List.mem_map.mp ht with ⟨g, hg, rfl⟩
  exact List.mem_append_left _ ha

lemma pk_tables1Stage (fds : List FD) (cks : List CandidateKey) :
    ∀ t ∈ tables1Stage fds cks, ∀ a ∈ t.primary_key, a ∈ t.columns := by
  unfold tables1Stage
  cases cks with
  | nil => exact pk_fdTables3NF fds
  | cons ck0 rest =>
    by_cases hc1 : ck0.columns.toFinset ⊆ unionCols (fdTables3NF fds)
    · simp only [hc1, if_true]
      exact pk_fdTables3NF fds
    · simp only [hc1, if_false]
      intro t ht a ha
      rcases List.mem_append.mp ht with htm | htm
      · exact pk_fdTables3NF fds t htm a ha
      · rcases List.mem_singleton.mp htm with rfl
        exact ha

lemma extendFirstMain_pk {ts : List Table} {extra : List String}
    (hts : ∀ t ∈ ts, ∀ a ∈ t.primary_key, a ∈ t.columns) :
    ∀ t ∈ (extendFirstMain ts extra).1, ∀ a ∈ t.primary_key, a ∈ t.columns := by
  induction ts with
  | nil => intro t ht; simp [extendFirstMain] at ht
  | cons u rest ih =>
    by_cases hm : u.source_fd = none
    · simp only [extendFirstMain, if_pos hm]
      intro t ht a ha
      rcases List.mem_cons.mp ht with htm | htm
      · rw [htm] at ha ⊢
        exact List.mem_append_left _ (hts u (List.mem_cons_self _ _) a ha)
      · exact hts t (List.mem_cons_of_mem _ htm) a ha
    · simp only [extendFirstMain, if_neg hm]
      intro t ht a ha
      rcases List.mem_cons.mp ht with htm | htm
      · rw [htm] at ha ⊢
        exact hts u (List.mem_cons_self _ _) a ha
      · exact ih (fun v hv => hts v (List.mem_cons_of_mem _ hv)) t htm a ha

lemma decompose_3nf_pk (columns : List String) (fds : List FD)
    (cks : List CandidateKey) :
    ∀ t ∈ decompose_3nf columns fds cks, ∀ a ∈ t.primary_key, a ∈ t.columns := by
  unfold decompose_3nf
  simp only []
  cases cks with
  | nil => exact pk_tables1Stage fds []
  | cons ck0 rest =>
    by_cases hc2 : (columns.toFinset \ unionCols (fdTables3NF fds)).Nonempty
    · simp only [hc2, if_true]
      by_cases hfound : (extendFirstMain (tables1Stage fds (ck0 :: rest))
          (sortStrs (drop_duplicates (columns.filter
            (fun c => decide (c ∈ columns.toFinset \ unionCols (fdTables3NF fds))))))).2 = true
      · rw [if_pos hfound]
        exact extendFirstMain_pk (pk_tables1Stage fds (ck0 :: rest))
      · rw [if_neg hfound]
        intro t ht a ha
        rcases List.mem_append.mp ht with htm | htm
        · exact pk_tables1Stage fds (ck0 :: rest) t htm a ha
        · rcases List.mem_singleton.mp htm with rfl
          exact List.mem_append_left _ ha
    · simp only [hc2, if_false]
      exact pk_tables1Stage fds (ck0 :: rest)

/-- **C10.** Every table produced by either decomposition algorithm carries a
primary key contained in its own columns, and `find_key` always returns a
subset of the column set it is given. -/
theorem decomposition_primary_keys (columns : List String) (fds : List FD)
    (cks : List CandidateKey) :
    (∀ t ∈ decompose_3nf columns fds cks, ∀ a ∈ t.primary_key, a ∈ t.columns) ∧
    (∀ tables, decompose_bcnf columns fds cks = some tables →
        ∀ t ∈ tables, t.primary_key ⊆ t.columns) ∧
    (∀ col_set : Finset String, find_key col_set fds cks ⊆ col_set) :=
  ⟨decompose_3nf_pk columns fds cks,
   fun tables h => bcnfRec_pk cks _ _ _ tables h,
   fun col_set => find_key_subset col_set fds cks⟩

/-- Witness for C10: the single BCNF table of a one-column decomposition has
its key inside its columns. -/
theorem decomposition_primary_keys_witness :
    (⟨{"A"}, {"A"}⟩ : BTable).primary_key ⊆ (⟨{"A"}, {"A"}⟩ : BTable).columns :=
  (decomposition_primary_keys ["A"] [] []).2.1 [⟨{"A"}, {"A"}⟩] (by decide)
    ⟨{"A"}, {"A"}⟩ (by decide)

/-- A table definition inside a transform config
(`{name, columns, primary_key}`). -/
structure TTable where
  name : String
  columns : List String
  primary_key : List String
deriving DecidableEq, Repr

/-- A foreign-key record
(`{child_table, column, parent_table, parent_column}`). -/
structure ForeignKey where
  child_table : String
  column : String
  parent_table : String
  parent_column : String
deriving DecidableEq, Repr

/-- The persisted transform config. -/
structure TConfig where
  version : String
  original_columns : List String
  tables : List TTable
  foreign_keys : List ForeignKey
deriving DecidableEq, Repr

/-- `generate_transform_config(tables, foreign_keys, original_columns)`
(normalize.py lines 308-322). -/
def generate_transform_config (tables : List Table) (foreign_keys : List ForeignKey)
    (original_columns : List String) : TConfig :=
  ⟨"1.0", original_columns,
   tables.map (fun t => ⟨t.name, t.columns, t.primary_key⟩), foreign_keys⟩

/-- `validate_input(df, config)` (transform.py lines 34-49).  The embedding
keeps the leading text of the two f-string messages and drops the
interpolated column sets; the `strict` check of `transform` only tests
whether a message contains `"Missing"`, which on these two messages is
message equality with the first. -/
def validate_input (df : Df) (config : TConfig) : List String :=
  let expected := config.original_columns.toFinset
  let actual := df.columns.toFinset
  let missing := expected \ actual
  let extra := actual \ expected
  (if missing ≠ ∅ then ["Missing columns"] else []) ++
    (if extra ≠ ∅ then ["Extra columns (will be ignored)"] else [])

/-- `df[columns]` for one row. -/
def projRow (cols : List String) (r : Row) : List (Option String) := cols.map r

/-- The row projection each writer produces:
`df[columns].drop_duplicates()` (normalize.py line 391 and transform.py
line 92 are the same pandas expression). -/
def synthWrite (df : Df) (columns : List String) : List (List (Option String)) :=
  drop_duplicates (df.rows.map (projRow columns))

/-- Cell order for `sort_values`: nulls first, then string order. -/
def optStrLe (a b : Option String) : Bool :=
  match a, b with
  | none, _ => true
  | some _, none => false
  | some x, some y => strLe x y

/-- The `by=pk` sort key of a projected row: its cells at the primary-key
columns. -/
def pkKey (columns pk : List String) (row : List (Option String)) : List (Option String) :=
  pk.map (fun k => row.getD (columns.indexOf k) none)

/-- Lexicographic order on sort keys. -/
def rowListLe : List (Option String) → List (Option String) → Bool
  | [], _ => true
  | _ :: _, [] => false
  | x :: xs, y :: ys => if x == y then rowListLe xs ys else optStrLe x y

/-- Insert into a sorted list under `le`. -/
def insertSortedBy (le : α → α → Bool) (a : α) : List α → List α
  | [] => [a]
  | b :: bs => if le a b then a :: b :: bs else b :: insertSortedBy le a bs

/-- Generic insertion sort; models `sort_values` (the claims below only use
that sorting permutes the rows, which holds for any comparison). -/
def sortBy (le : α → α → Bool) : List α → List α
  | [] => []
  | a :: as => insertSortedBy le a (sortBy le as)

lemma insertSortedBy_perm (le : α → α → Bool) (a : α) :
    ∀ l : List α, (insertSortedBy le a l).Perm (a :: l) := by
  intro l
  induction l with
  | nil => exact List.Perm.refl _
  | cons b bs ih =>
    by_cases h : le a b = true
    · simp only [insertSortedBy, if_pos h]
      exact List.Perm.refl _
    · simp only [insertSortedBy, if_neg h]
      exact List.Perm.trans (List.Perm.cons b ih) (List.Perm.swap a b bs)

lemma sortBy_perm (le : α → α → Bool) : ∀ l : List α, (sortBy le l).Perm l := by
  intro l
  induction l with
  | nil => exact List.Perm.refl _
  | cons a as ih =>
    exact List.Perm.trans (insertSortedBy_perm le a (sortBy le as)) (List.Perm.cons a ih)

/-- The projected, deduplicated, pk-sorted rows written by `transform` for
one table (transform.py lines 91-99). -/
def writeTable (df : Df) (columns pk : List String) : List (List (Option String)) :=
  sortBy (fun r1 r2 => rowListLe (pkKey columns pk r1) (pkKey columns pk r2))
    (synthWrite df columns)

/-- `transform(csv, config, out, strict)` (transform.py lines 52-121),
modelling the written table files as a name/rows list.  `none` models the
strict-mode `sys.exit(1)`, which fires before any table is written. -/
def transform (df : Df) (config : TConfig) (strict : Bool) :
    Option (List (String × List (List (Option String)))) :=
  let errors := validate_input df config
  if strict && errors.any (fun e => e == "Missing columns") then none
  else
    some (config.tables.foldl (fun acc t =>
      if (t.columns.filter (fun c => decide (c ∈ df.columns))).length = t.columns.length then
        acc ++ [(t.name, writeTable df t.columns t.primary_key)]
      else acc) [])

lemma foldl_ite_append {α β : Type} (p : α → Prop) [DecidablePred p] (g : α → β) :
    ∀ (l : List α) (acc : List β),
      l.foldl (fun acc a => if p a then acc ++ [g a] else acc) acc
        = acc ++ (l.filter (fun a => decide (p a))).map g := by
  intro l
  induction l with
  | nil => intro acc; simp
  | cons a l ih =>
    intro acc
    simp only [List.foldl_cons]
    by_cases h : p a
    · rw [if_pos h, ih, List.filter_cons]
      simp [h, List.append_assoc]
    · rw [if_neg h, ih, List.filter_cons]
      simp [h]

lemma validate_any_missing (df : Df) (config : TConfig) :
    ((validate_input df config).any (fun e => e == "Missing columns")) = true ↔
      (config.original_columns.toFinset \ df.columns.toFinset) ≠ ∅ := by
  unfold validate_input
  by_cases h : (config.original_columns.toFinset \ df.columns.toFinset) ≠ ∅
  · simp only [h, if_true, List.any_append, List.any_cons, List.any_nil]
    simp [h]
  · simp only [h, if_false]
    constructor
    · intro hany
      by_cases hx : (df.columns.toFinset \ config.original_columns.toFinset) ≠ ∅
      · simp only [hx, if_true] at hany
        simp at hany
      · simp only [hx, if_false] at hany
        simp at hany
    · intro hc
      exact hc.elim

/-- **C8.** In strict mode, a data frame missing one of the config's
original columns makes `transform` abort before writing any table; without
strict mode, `transform` writes exactly the tables whose columns are all
present in the data (in config order), skipping — without failing — every
table with a missing column. -/
theorem transform_strict_abort_and_skip (df : Df) (config : TConfig) :
    ((config.original_columns.toFinset \ df.columns.toFinset) ≠ ∅ →
      transform df config true = none) ∧
    transform df config false = some ((config.tables.filter (fun t =>
        decide ((t.columns.filter (fun c => decide (c ∈ df.columns))).length =
          t.columns.length))).map
      (fun t => (t.name, writeTable df t.columns t.primary_key))) := by
  constructor
  · intro hmiss
    unfold transform
    rw [if_pos]
    rw [Bool.true_and]
    exact (validate_any_missing df config).mpr hmiss
  · unfold transform
    rw [if_neg (by simp)]
    rw [foldl_ite_append (fun t : TTable =>
      (t.columns.filter (fun c => decide (c ∈ df.columns))).length = t.columns.length)
      (fun t => (t.name, writeTable df t.columns t.primary_key)) config.tables []]
    simp

/-- A config expecting columns `a, b` with one fully-present table and one
table referencing a missing column `z`. -/
def c8Config : TConfig :=
  ⟨"1.0", ["a", "b"], [⟨"t1", ["a"], ["a"]⟩, ⟨"t2", ["a", "z"], ["a"]⟩], []⟩

/-- A frame having only column `a` (so `b` is missing). -/
def c8Df : Df := ⟨["a"], [fun c => if c = "a" then some "1" else none]⟩

/-- Witness for C8: on the concrete frame missing column `b`, strict replay
aborts (no table file is written). -/
theorem transform_strict_abort_witness : transform c8Df c8Config true = none :=
  (transform_strict_abort_and_skip c8Df c8Config).1 (by decide)

/-- **C9.** Replaying a config generated from a synthesis run against the
very data it came from writes, for every synthesized table, the same multiset
of rows that the synthesis wrote for it (`transform` only re-sorts the
deduplicated projection). -/
theorem transform_replays_synthesis (df : Df) (tables : List Table)
    (fks : List ForeignKey)
    (hcols : ∀ t ∈ tables, ∀ c ∈ t.columns, c ∈ df.columns) :
    ∃ ws, transform df (generate_transform_config tables fks df.columns) false = some ws ∧
      ∀ t ∈ tables, ∃ w ∈ ws, w.1 = t.name ∧
        Multiset.ofList w.2 = Multiset.ofList (synthWrite df t.columns) := by
  refine ⟨_, (transform_strict_abort_and_skip df _).2, ?_⟩
  intro t ht
  refine ⟨(t.name, writeTable df t.columns t.primary_key), ?_, rfl, ?_⟩
  · have hmem : (⟨t.name, t.columns, t.primary_key⟩ : TTable) ∈
        (generate_transform_config tables fks df.columns).tables := by
      simp only [generate_transform_config, List.mem_map]
      exact ⟨t, ht, rfl⟩
    have hfe : t.columns.filter (fun c => decide (c ∈ df.columns)) = t.columns :=
      List.filter_eq_self.mpr (fun c hc => by simpa using hcols t ht c hc)
    refine List.mem_map.mpr ⟨⟨t.name, t.columns, t.primary_key⟩, ?_, rfl⟩
    refine List.mem_filter.mpr ⟨hmem, ?_⟩
    simp [hfe]
  · exact Multiset.coe_eq_coe.mpr (sortBy_perm _ _)

/-- Witness for C9: a concrete one-table synthesis output replayed on its own
frame reproduces the table contents up to row order. -/
theorem transform_replays_synthesis_witness :
    ∃ ws, transform (⟨["a", "b"], [fun _ => some "1"]⟩ : Df)
        (generate_transform_config [⟨"t1", ["a"], ["a"], none⟩] [] ["a", "b"]) false =
        some ws ∧
      ∀ t ∈ [(⟨"t1", ["a"], ["a"], none⟩ : Table)], ∃ w ∈ ws, w.1 = t.name ∧
        Multiset.ofList w.2 =
          Multiset.ofList (synthWrite (⟨["a", "b"], [fun _ => some "1"]⟩ : Df) t.columns) :=
  transform_replays_synthesis (⟨["a", "b"], [fun _ => some "1"]⟩ : Df)
    [⟨"t1", ["a"], ["a"], none⟩] [] (by decide)
